import Mathlib

/-!
Verification of the generic intrusive tree core of `src/servo/util/tree.rs`.

The Rust code is generic over a node-handle type `T` and a capability that,
given a handle, yields scoped access to the node's embedded `Tree<T>` record
of five optional links.  We embed this shallowly: handles are `Nat`, the
capability is an explicit store `State := Nat → Tree` mapping each handle to
its tree-fields record, `tree_eq` is equality of handles, and each mutation
of a record through the capability becomes a functional update of the store,
performed in the order the source performs it.  Failures (`fail!` and
`fail_unless!`) become `Except.error` with a message identifying the check.
-/

namespace ServoTree

/-- The five-field record `Tree<T>` embedded per node (`tree.rs`, `pub struct Tree`). -/
@[ext] structure Tree where
  parent : Option Nat
  first_child : Option Nat
  last_child : Option Nat
  prev_sibling : Option Nat
  next_sibling : Option Nat
deriving DecidableEq

/-- The store reachable through the capability: each handle's tree-fields record. -/
abbrev State := Nat → Tree

/-- Writing one node's record through the write capability. -/
def State.set (s : State) (n : Nat) (t : Tree) : State :=
  fun m => if m = n then t else s m

/-- `pub fn empty`: the all-`None` record a host constructs nodes with. -/
def empty : Tree :=
  { parent := none, first_child := none, last_child := none,
    prev_sibling := none, next_sibling := none }

/-- The store in which every node is fresh (all records empty). -/
def initState : State := fun _ => empty

/-- `pub fn first_child`. -/
def first_child (s : State) (node : Nat) : Option Nat := (s node).first_child

/-- `pub fn last_child`. -/
def last_child (s : State) (node : Nat) : Option Nat := (s node).last_child

/-- `pub fn next_sibling`. -/
def next_sibling (s : State) (node : Nat) : Option Nat := (s node).next_sibling

/-- `pub fn prev_sibling`. -/
def prev_sibling (s : State) (node : Nat) : Option Nat := (s node).prev_sibling

/-- `pub fn parent`. -/
def parent (s : State) (node : Nat) : Option Nat := (s node).parent

/-- `pub fn is_leaf`. -/
def is_leaf (s : State) (node : Nat) : Bool := (first_child s node).isNone

/-- `pub fn get_parent` (the duplicate accessor at the bottom of the file). -/
def get_parent (s : State) (node : Nat) : Option Nat := (s node).parent

/-- The loop of `each_child`, made total with a fuel argument: starting from an
optional handle it returns the nodes on which the visitor `f` is invoked (in
order of invocation), or `none` if the walk does not finish within `fuel`
steps (the source loop would still be running).  A visitor returning `false`
is still invoked on that node, and the walk stops right after, as in the
source (`if !f(c) { return; }`). -/
def eachChildRun (s : State) (f : Nat → Bool) : Option Nat → Nat → Option (List Nat)
  | none, _ => some []
  | some _, 0 => none
  | some c, fuel + 1 =>
      if f c then (eachChildRun s f ((s c).next_sibling) fuel).map (fun l => c :: l)
      else some [c]

/-- `pub fn each_child`: walk from `first_child` following `next_sibling`. -/
def each_child (s : State) (node : Nat) (f : Nat → Bool) (fuel : Nat) : Option (List Nat) :=
  eachChildRun s f ((s node).first_child) fuel

/-- Generic fuelled link-chasing: the list of nodes visited by repeatedly
applying `g` until `none`, or `none` if `fuel` runs out first. -/
def chainEval (g : Nat → Option Nat) : Option Nat → Nat → Option (List Nat)
  | none, _ => some []
  | some _, 0 => none
  | some c, fuel + 1 => (chainEval g (g c) fuel).map (fun l => c :: l)

/-- The `next_sibling` field as a link function. -/
def nextF (s : State) : Nat → Option Nat := fun n => (s n).next_sibling

/-- The `prev_sibling` field as a link function. -/
def prevF (s : State) : Nat → Option Nat := fun n => (s n).prev_sibling

/-- Final store of a successful `add_child` when the parent was childless
(`None` arm of the `match copy parent_tf.last_child`): set `child.parent`,
then `parent.first_child`, then `parent.last_child`. -/
def addUpdNone (s : State) (parent child : Nat) : State :=
  let s1 := State.set s child { (s child) with parent := some parent }
  let s2 := State.set s1 parent { (s1 parent) with first_child := some child }
  State.set s2 parent { (s2 parent) with last_child := some child }

/-- Final store of a successful `add_child` when the parent's last child was
`lc` (`Some(lc)` arm): set `child.parent`, then `lc.next_sibling`, then
`child.prev_sibling`, then `parent.last_child`, in source order. -/
def addUpdSome (s : State) (parent child lc : Nat) : State :=
  let s1 := State.set s child { (s child) with parent := some parent }
  let s2 := State.set s1 lc { (s1 lc) with next_sibling := some child }
  let s3 := State.set s2 child { (s2 child) with prev_sibling := some lc }
  State.set s3 parent { (s3 parent) with last_child := some child }

/-- `pub fn add_child`.  The source asserts `!tree_eq(parent, child)`, writes
`child.parent`, asserts `child`'s sibling links are empty, and then appends at
the tail, asserting the old tail had no `next_sibling`.  Assertion and
`fail!` failures abort the task, so a failing run observes no state; the
successful final stores are `addUpdNone`/`addUpdSome` above. -/
def add_child (s : State) (parent child : Nat) : Except String State :=
  if parent = child then Except.error "assertion failed: not tree_eq(parent, child)"
  else
    match (s child).parent with
    | some _ => Except.error "Already has a parent"
    | none =>
      -- the store after `child_tf.parent = Some(parent)`
      let s1 := State.set s child { (s child) with parent := some parent }
      if (s1 child).prev_sibling.isSome then
        Except.error "assertion failed: child_tf.prev_sibling.is_none()"
      else if (s1 child).next_sibling.isSome then
        Except.error "assertion failed: child_tf.next_sibling.is_none()"
      else
        match (s1 parent).last_child with
        | none => Except.ok (addUpdNone s parent child)
        | some lc =>
          if (s1 lc).next_sibling.isSome then
            Except.error "assertion failed: lc_tf.next_sibling.is_none()"
          else Except.ok (addUpdSome s parent child lc)

/-- `remove_child` step 1: `parent_tf.first_child = child_tf.next_sibling`
when the parent's first child is `child` (the `Some(first_child) if
tree_eq(child, first_child)` arm). -/
def rstep1 (s : State) (parent child : Nat) : State :=
  if (s parent).first_child = some child then
    State.set s parent { (s parent) with first_child := (s child).next_sibling }
  else s

/-- `remove_child` step 2: `parent_tf.last_child = child_tf.prev_sibling`
when the parent's last child is `child`, reading from the live store. -/
def rstep2 (s : State) (parent child : Nat) : State :=
  if (s parent).last_child = some child then
    State.set s parent { (s parent) with last_child := (s child).prev_sibling }
  else s

/-- `remove_child` step 3: `prev_tf.next_sibling = child_tf.next_sibling`
for the previous sibling, when there is one. -/
def rstep3 (s : State) (child : Nat) : State :=
  match (s child).prev_sibling with
  | none => s
  | some pv => State.set s pv { (s pv) with next_sibling := (s child).next_sibling }

/-- `remove_child` step 4: `next_tf.prev_sibling = child_tf.prev_sibling`
for the next sibling, when there is one. -/
def rstep4 (s : State) (child : Nat) : State :=
  match (s child).next_sibling with
  | none => s
  | some nx => State.set s nx { (s nx) with prev_sibling := (s child).prev_sibling }

/-- `remove_child` step 5: clear `child`'s `parent`/`next`/`prev` (its own
`first_child`/`last_child` are left untouched). -/
def rstep5 (s : State) (child : Nat) : State :=
  State.set s child
    { (s child) with parent := none, next_sibling := none, prev_sibling := none }

/-- Final store of a successful `remove_child`: the five steps above in
source order.  The `Some(x) if tree_eq(child, x)` match guards of the source
become equality tests of the optional field with `some child`. -/
def removeUpd (s : State) (parent child : Nat) : State :=
  rstep5 (rstep4 (rstep3 (rstep2 (rstep1 s parent child) parent child) child) child) child

/-- `pub fn remove_child`.  The source fails with `"Not a child"` when
`child.parent` is `None`, asserts `tree_eq(parent, parent_n)`, and inside the
parent's record fails when `first_child` (resp. `last_child`) is `None`.
Those two reads are unchanged by the conditional `first_child` update that
sits between them in the source (it touches only the `first_child` field), so
the checks are hoisted before the update pipeline `removeUpd`, which performs
the mutations in source order. -/
def remove_child (s : State) (parent child : Nat) : Except String State :=
  match (s child).parent with
  | none => Except.error "Not a child"
  | some parent_n =>
    if parent = parent_n then
      match (s parent).first_child with
      | none => Except.error "parent had no first child??"
      | some _ =>
        match (s parent).last_child with
        | none => Except.error "parent had no last child??"
        | some _ => Except.ok (removeUpd s parent child)
    else Except.error "assertion failed: tree_eq(parent, parent_n)"

/-- Whether an operation succeeded. -/
def isOkE (e : Except String State) : Bool :=
  match e with
  | Except.ok _ => true
  | Except.error _ => false

/-- Stores reachable from fresh nodes by successful mutations. -/
inductive Reachable : State → Prop
  | init : Reachable initState
  | add {s s' : State} {p c : Nat} : Reachable s → add_child s p c = Except.ok s' → Reachable s'
  | remove {s s' : State} {p c : Nat} : Reachable s → remove_child s p c = Except.ok s' →
      Reachable s'

/-! ### The sibling-list abstraction

A parent's children form a doubly linked list.  We relate the store to an
abstract assignment `kids : Nat → List Nat` of child lists, through a
segment predicate `seg` stating that a list of nodes is correctly doubly
linked between two boundary links. -/

/-- The head of `l`, or the fallback `o` when `l` is empty. -/
def headOr (l : List Nat) (o : Option Nat) : Option Nat :=
  match l with
  | [] => o
  | c :: _ => some c

/-- The last element of `l`, or the fallback `o` when `l` is empty. -/
def lastOr (l : List Nat) (o : Option Nat) : Option Nat :=
  headOr l.reverse o

/-- `seg gp gn pr l nx`: the nodes of `l`, in order, are doubly linked via
the backward link `gp` and forward link `gn`, with the first node's `gp`
being `pr` and the last node's `gn` being `nx`. -/
def seg (gp gn : Nat → Option Nat) : Option Nat → List Nat → Option Nat → Prop
  | _, [], _ => True
  | pr, c :: l, nx => gp c = pr ∧ gn c = headOr l nx ∧ seg gp gn (some c) l nx

@[simp] theorem headOr_nil (o : Option Nat) : headOr [] o = o := rfl

@[simp] theorem headOr_cons (c : Nat) (l : List Nat) (o : Option Nat) :
    headOr (c :: l) o = some c := rfl

theorem headOr_append (l1 l2 : List Nat) (o : Option Nat) :
    headOr (l1 ++ l2) o = headOr l1 (headOr l2 o) := by
  cases l1 <;> rfl

@[simp] theorem lastOr_nil (o : Option Nat) : lastOr [] o = o := rfl

@[simp] theorem lastOr_snoc (l : List Nat) (a : Nat) (o : Option Nat) :
    lastOr (l ++ [a]) o = some a := by
  simp [lastOr, headOr_append]

theorem lastOr_append (l1 l2 : List Nat) (o : Option Nat) :
    lastOr (l1 ++ l2) o = lastOr l2 (lastOr l1 o) := by
  simp [lastOr, List.reverse_append, headOr_append]

theorem lastOr_cons (c : Nat) (l : List Nat) (o : Option Nat) :
    lastOr (c :: l) o = lastOr l (some c) := by
  have h : c :: l = [c] ++ l := rfl
  rw [h, lastOr_append]; rfl

theorem eq_nil_or_append (l : List Nat) : l = [] ∨ ∃ t a, l = t ++ [a] := by
  rcases List.eq_nil_or_concat l with h | ⟨t, a, h⟩
  · exact Or.inl h
  · exact Or.inr ⟨t, a, by rw [h, List.concat_eq_append]⟩

theorem headOr_eq_none (l : List Nat) (h : headOr l none = none) : l = [] := by
  cases l with
  | nil => rfl
  | cons c t => simp [headOr] at h

theorem headOr_eq_some {l : List Nat} {a : Nat} (h : headOr l none = some a) :
    ∃ t, l = a :: t := by
  cases l with
  | nil => simp [headOr] at h
  | cons c t =>
    simp [headOr] at h
    exact ⟨t, by rw [h]⟩

theorem lastOr_eq_none (l : List Nat) (h : lastOr l none = none) : l = [] := by
  have := headOr_eq_none l.reverse h
  simpa using congrArg List.reverse this

theorem lastOr_eq_some {l : List Nat} {a : Nat} (h : lastOr l none = some a) :
    ∃ t, l = t ++ [a] := by
  obtain ⟨t, ht⟩ := headOr_eq_some h
  refine ⟨t.reverse, ?_⟩
  have := congrArg List.reverse ht
  simpa using this

@[simp] theorem seg_nil (gp gn : Nat → Option Nat) (pr nx : Option Nat) :
    seg gp gn pr [] nx := trivial

theorem seg_cons (gp gn : Nat → Option Nat) (pr nx : Option Nat) (c : Nat) (l : List Nat) :
    seg gp gn pr (c :: l) nx ↔ gp c = pr ∧ gn c = headOr l nx ∧ seg gp gn (some c) l nx :=
  Iff.rfl

theorem seg_append (gp gn : Nat → Option Nat) (l1 l2 : List Nat) (pr nx : Option Nat) :
    seg gp gn pr (l1 ++ l2) nx ↔
      seg gp gn pr l1 (headOr l2 nx) ∧ seg gp gn (lastOr l1 pr) l2 nx := by
  induction l1 generalizing pr with
  | nil => simp
  | cons c t ih =>
    simp only [List.cons_append, seg_cons, headOr_append, lastOr_cons, ih, and_assoc]

theorem seg_congr {gp gn gp' gn' : Nat → Option Nat} {l : List Nat} {pr nx : Option Nat}
    (h : ∀ d ∈ l, gp' d = gp d ∧ gn' d = gn d) (hs : seg gp gn pr l nx) :
    seg gp' gn' pr l nx := by
  induction l generalizing pr with
  | nil => trivial
  | cons c t ih =>
    obtain ⟨h1, h2, h3⟩ := hs
    obtain ⟨hc1, hc2⟩ := h c (by simp)
    exact ⟨hc1.trans h1, hc2.trans h2, ih (fun d hd => h d (by simp [hd])) h3⟩

theorem seg_reverse {gp gn : Nat → Option Nat} {l : List Nat} {pr nx : Option Nat}
    (hs : seg gp gn pr l nx) : seg gn gp nx l.reverse pr := by
  induction l generalizing pr with
  | nil => trivial
  | cons c t ih =>
    obtain ⟨h1, h2, h3⟩ := hs
    simp only [List.reverse_cons]
    rw [seg_append]
    refine ⟨?_, ?_⟩
    · simpa using ih h3
    · refine ⟨?_, ?_, trivial⟩
      · show gn c = lastOr t.reverse nx
        rw [h2, lastOr, List.reverse_reverse]
      · simpa using h1

@[simp] theorem chainEval_none (g : Nat → Option Nat) (fuel : Nat) :
    chainEval g none fuel = some [] := by
  cases fuel <;> rfl

theorem chainEval_some (g : Nat → Option Nat) (c : Nat) (fuel : Nat) :
    chainEval g (some c) (fuel + 1) = (chainEval g (g c) fuel).map (fun l => c :: l) := rfl

theorem seg_chainEval {gp gn : Nat → Option Nat} {l : List Nat} {pr : Option Nat}
    (hs : seg gp gn pr l none) :
    ∀ fuel, l.length ≤ fuel → chainEval gn (headOr l none) fuel = some l := by
  induction l generalizing pr with
  | nil => intro fuel _; simp
  | cons c t ih =>
    intro fuel hf
    obtain ⟨_, h2, h3⟩ := hs
    cases fuel with
    | zero => simp at hf
    | succ k =>
      have hk : t.length ≤ k := Nat.succ_le_succ_iff.mp hf
      rw [headOr_cons, chainEval_some, h2, ih h3 k hk]
      rfl

/-! ### Pointwise characterization of the update pipelines -/

theorem set_apply (s : State) (n : Nat) (t : Tree) (m : Nat) :
    State.set s n t m = if m = n then t else s m := rfl

@[simp] theorem set_same (s : State) (n : Nat) (t : Tree) : State.set s n t n = t := by
  simp [State.set]

theorem set_ne (s : State) (n : Nat) (t : Tree) {m : Nat} (h : m ≠ n) :
    State.set s n t m = s m := by
  simp [State.set, h]

theorem addUpdNone_parent (s : State) (p c x : Nat) :
    (addUpdNone s p c x).parent = if x = c then some p else (s x).parent := by
  by_cases hxc : x = c <;> by_cases hxp : x = p <;>
    simp_all [addUpdNone, State.set] <;> split <;> simp_all

theorem addUpdNone_first (s : State) (p c x : Nat) :
    (addUpdNone s p c x).first_child = if x = p then some c else (s x).first_child := by
  by_cases hxc : x = c <;> by_cases hxp : x = p <;>
    simp_all [addUpdNone, State.set] <;> split <;> simp_all

theorem addUpdNone_last (s : State) (p c x : Nat) :
    (addUpdNone s p c x).last_child = if x = p then some c else (s x).last_child := by
  by_cases hxc : x = c <;> by_cases hxp : x = p <;>
    simp_all [addUpdNone, State.set] <;> split <;> simp_all

theorem addUpdNone_prev (s : State) (p c x : Nat) :
    (addUpdNone s p c x).prev_sibling = (s x).prev_sibling := by
  by_cases hxc : x = c <;> by_cases hxp : x = p <;>
    simp_all [addUpdNone, State.set] <;> split <;> simp_all

theorem addUpdNone_next (s : State) (p c x : Nat) :
    (addUpdNone s p c x).next_sibling = (s x).next_sibling := by
  by_cases hxc : x = c <;> by_cases hxp : x = p <;>
    simp_all [addUpdNone, State.set] <;> split <;> simp_all

theorem addUpdSome_parent (s : State) (p c lc x : Nat) :
    (addUpdSome s p c lc x).parent = if x = c then some p else (s x).parent := by
  by_cases hxc : x = c <;> by_cases hxp : x = p <;> by_cases hxl : x = lc <;>
    simp_all [addUpdSome, State.set] <;> split <;> simp_all

theorem addUpdSome_first (s : State) (p c lc x : Nat) :
    (addUpdSome s p c lc x).first_child = (s x).first_child := by
  by_cases hxc : x = c <;> by_cases hxp : x = p <;> by_cases hxl : x = lc <;>
    simp_all [addUpdSome, State.set] <;> split <;> simp_all

theorem addUpdSome_last (s : State) (p c lc x : Nat) :
    (addUpdSome s p c lc x).last_child = if x = p then some c else (s x).last_child := by
  by_cases hxc : x = c <;> by_cases hxp : x = p <;> by_cases hxl : x = lc <;>
    simp_all [addUpdSome, State.set] <;> split <;> simp_all

theorem addUpdSome_prev (s : State) (p c lc x : Nat) :
    (addUpdSome s p c lc x).prev_sibling = if x = c then some lc else (s x).prev_sibling := by
  by_cases hxc : x = c <;> by_cases hxp : x = p <;> by_cases hxl : x = lc <;>
    simp_all [addUpdSome, State.set] <;> split <;> simp_all

theorem addUpdSome_next (s : State) (p c lc x : Nat) :
    (addUpdSome s p c lc x).next_sibling = if x = lc then some c else (s x).next_sibling := by
  by_cases hxc : x = c <;> by_cases hxp : x = p <;> by_cases hxl : x = lc <;>
    simp_all [addUpdSome, State.set] <;> split <;> simp_all

theorem rstep1_first (s : State) (p c y : Nat) :
    (rstep1 s p c y).first_child =
      if y = p ∧ (s p).first_child = some c then (s c).next_sibling
      else (s y).first_child := by
  by_cases hyp : y = p <;> by_cases hf : (s p).first_child = some c <;>
    simp_all [rstep1, State.set]

theorem rstep1_other (s : State) (p c y : Nat) :
    (rstep1 s p c y).parent = (s y).parent ∧
    (rstep1 s p c y).last_child = (s y).last_child ∧
    (rstep1 s p c y).prev_sibling = (s y).prev_sibling ∧
    (rstep1 s p c y).next_sibling = (s y).next_sibling := by
  by_cases hyp : y = p <;> by_cases hf : (s p).first_child = some c <;>
    simp_all [rstep1, State.set]

theorem rstep2_last (s : State) (p c y : Nat) :
    (rstep2 s p c y).last_child =
      if y = p ∧ (s p).last_child = some c then (s c).prev_sibling
      else (s y).last_child := by
  by_cases hyp : y = p <;> by_cases hf : (s p).last_child = some c <;>
    simp_all [rstep2, State.set]

theorem rstep2_other (s : State) (p c y : Nat) :
    (rstep2 s p c y).parent = (s y).parent ∧
    (rstep2 s p c y).first_child = (s y).first_child ∧
    (rstep2 s p c y).prev_sibling = (s y).prev_sibling ∧
    (rstep2 s p c y).next_sibling = (s y).next_sibling := by
  by_cases hyp : y = p <;> by_cases hf : (s p).last_child = some c <;>
    simp_all [rstep2, State.set]

theorem rstep3_next (s : State) (c y : Nat) :
    (rstep3 s c y).next_sibling =
      if (s c).prev_sibling = some y then (s c).next_sibling
      else (s y).next_sibling := by
  unfold rstep3
  rcases hp : (s c).prev_sibling with _ | pv
  · simp
  · dsimp only
    by_cases hy : y = pv
    · subst hy; simp [State.set]
    · rw [set_ne _ _ _ hy, if_neg (fun h => hy (Option.some.inj h).symm)]

theorem rstep3_other (s : State) (c y : Nat) :
    (rstep3 s c y).parent = (s y).parent ∧
    (rstep3 s c y).first_child = (s y).first_child ∧
    (rstep3 s c y).last_child = (s y).last_child ∧
    (rstep3 s c y).prev_sibling = (s y).prev_sibling := by
  unfold rstep3
  rcases hp : (s c).prev_sibling with _ | pv
  · simp
  · by_cases hy : y = pv <;> simp_all [State.set]

theorem rstep4_prev (s : State) (c y : Nat) :
    (rstep4 s c y).prev_sibling =
      if (s c).next_sibling = some y then (s c).prev_sibling
      else (s y).prev_sibling := by
  unfold rstep4
  rcases hn : (s c).next_sibling with _ | nx
  · simp
  · dsimp only
    by_cases hy : y = nx
    · subst hy; simp [State.set]
    · rw [set_ne _ _ _ hy, if_neg (fun h => hy (Option.some.inj h).symm)]

theorem rstep4_other (s : State) (c y : Nat) :
    (rstep4 s c y).parent = (s y).parent ∧
    (rstep4 s c y).first_child = (s y).first_child ∧
    (rstep4 s c y).last_child = (s y).last_child ∧
    (rstep4 s c y).next_sibling = (s y).next_sibling := by
  unfold rstep4
  rcases hn : (s c).next_sibling with _ | nx
  · simp
  · by_cases hy : y = nx <;> simp_all [State.set]

theorem rstep5_apply (s : State) (c y : Nat) :
    rstep5 s c y =
      if y = c then
        { (s c) with parent := none, next_sibling := none, prev_sibling := none }
      else s y := by
  by_cases hy : y = c <;> simp_all [rstep5, State.set]

/-- `rstep3` keeps the child's own record unchanged in the fields later
steps read: its `next_sibling` value is rewritten only when the child is its
own previous sibling, and then to the same value. -/
theorem rstep3_child_next (s : State) (c : Nat) :
    (rstep3 s c c).next_sibling = (s c).next_sibling := by
  rw [rstep3_next]; split <;> rfl

theorem removeUpd_parent (s : State) (p c x : Nat) :
    (removeUpd s p c x).parent = if x = c then none else (s x).parent := by
  unfold removeUpd
  rw [rstep5_apply]
  by_cases hxc : x = c
  · simp [hxc]
  · rw [if_neg hxc, if_neg hxc, (rstep4_other _ _ _).1, (rstep3_other _ _ _).1,
      (rstep2_other _ _ _ _).1, (rstep1_other _ _ _ _).1]

theorem removeUpd_first (s : State) (p c x : Nat) :
    (removeUpd s p c x).first_child =
      if x = p ∧ (s p).first_child = some c then (s c).next_sibling
      else (s x).first_child := by
  unfold removeUpd
  rw [rstep5_apply]
  by_cases hxc : x = c
  · simp only [hxc, ite_true]
    show (rstep4 _ _ c).first_child = _
    rw [(rstep4_other _ _ _).2.1, (rstep3_other _ _ _).2.1, (rstep2_other _ _ _ _).2.1,
      rstep1_first]
  · simp only [hxc, ite_false]
    rw [(rstep4_other _ _ _).2.1, (rstep3_other _ _ _).2.1, (rstep2_other _ _ _ _).2.1,
      rstep1_first]

theorem removeUpd_last (s : State) (p c x : Nat) :
    (removeUpd s p c x).last_child =
      if x = p ∧ (s p).last_child = some c then (s c).prev_sibling
      else (s x).last_child := by
  unfold removeUpd
  rw [rstep5_apply]
  have hstep2 : ∀ y, (rstep2 (rstep1 s p c) p c y).last_child =
      if y = p ∧ (s p).last_child = some c then (s c).prev_sibling else (s y).last_child := by
    intro y
    rw [rstep2_last, (rstep1_other s p c p).2.1, (rstep1_other s p c c).2.2.1,
      (rstep1_other s p c y).2.1]
  by_cases hxc : x = c
  · simp only [hxc, ite_true]
    show (rstep4 _ _ c).last_child = _
    rw [(rstep4_other _ _ _).2.2.1, (rstep3_other _ _ _).2.2.1, hstep2]
  · simp only [hxc, ite_false]
    rw [(rstep4_other _ _ _).2.2.1, (rstep3_other _ _ _).2.2.1, hstep2]

theorem removeUpd_prev (s : State) (p c x : Nat) :
    (removeUpd s p c x).prev_sibling =
      if x = c then none
      else if (s c).next_sibling = some x then (s c).prev_sibling
      else (s x).prev_sibling := by
  unfold removeUpd
  rw [rstep5_apply]
  have h12 : ∀ y, (rstep2 (rstep1 s p c) p c y).prev_sibling = (s y).prev_sibling := by
    intro y; rw [(rstep2_other _ _ _ _).2.2.1, (rstep1_other _ _ _ _).2.2.1]
  have h12n : ∀ y, (rstep2 (rstep1 s p c) p c y).next_sibling = (s y).next_sibling := by
    intro y; rw [(rstep2_other _ _ _ _).2.2.2, (rstep1_other _ _ _ _).2.2.2]
  have h3c_next : (rstep3 (rstep2 (rstep1 s p c) p c) c c).next_sibling =
      (s c).next_sibling := by
    rw [rstep3_child_next, h12n]
  have h3c_prev : (rstep3 (rstep2 (rstep1 s p c) p c) c c).prev_sibling =
      (s c).prev_sibling := by
    rw [(rstep3_other _ _ _).2.2.2, h12]
  by_cases hxc : x = c
  · simp [hxc]
  · simp only [hxc, ite_false]
    rw [rstep4_prev, h3c_next, h3c_prev, (rstep3_other _ _ _).2.2.2, h12]

theorem removeUpd_next (s : State) (p c x : Nat) :
    (removeUpd s p c x).next_sibling =
      if x = c then none
      else if (s c).prev_sibling = some x then (s c).next_sibling
      else (s x).next_sibling := by
  unfold removeUpd
  rw [rstep5_apply]
  have h12 : ∀ y, (rstep2 (rstep1 s p c) p c y).prev_sibling = (s y).prev_sibling := by
    intro y; rw [(rstep2_other _ _ _ _).2.2.1, (rstep1_other _ _ _ _).2.2.1]
  have h12n : ∀ y, (rstep2 (rstep1 s p c) p c y).next_sibling = (s y).next_sibling := by
    intro y; rw [(rstep2_other _ _ _ _).2.2.2, (rstep1_other _ _ _ _).2.2.2]
  by_cases hxc : x = c
  · simp [hxc]
  · simp only [hxc, ite_false]
    rw [(rstep4_other _ _ _).2.2.2, rstep3_next, h12, h12n, h12n]

/-! ### Success and failure characterization of the two mutations -/

theorem add_child_ok_iff {s : State} {p c : Nat} {s' : State} :
    add_child s p c = Except.ok s' ↔
      p ≠ c ∧ (s c).parent = none ∧ (s c).prev_sibling = none ∧ (s c).next_sibling = none ∧
        (((s p).last_child = none ∧ s' = addUpdNone s p c) ∨
         (∃ lc, (s p).last_child = some lc ∧ (s lc).next_sibling = none ∧
            s' = addUpdSome s p c lc)) := by
  unfold add_child
  have hprev1 : ∀ y, (State.set s c { (s c) with parent := some p } y).prev_sibling =
      (s y).prev_sibling := by
    intro y; by_cases hy : y = c <;> simp [State.set, hy]
  have hnext1 : ∀ y, (State.set s c { (s c) with parent := some p } y).next_sibling =
      (s y).next_sibling := by
    intro y; by_cases hy : y = c <;> simp [State.set, hy]
  have hlast1 : ∀ y, (State.set s c { (s c) with parent := some p } y).last_child =
      (s y).last_child := by
    intro y; by_cases hy : y = c <;> simp [State.set, hy]
  by_cases hpc : p = c
  · simp [hpc]
  · rw [if_neg hpc]
    simp only [hprev1, hnext1, hlast1]
    rcases hpar : (s c).parent with _ | q
    · dsimp only
      rcases hpv : (s c).prev_sibling with _ | v
      · rcases hnx : (s c).next_sibling with _ | w
        · simp only [Option.isSome_none, Bool.false_eq_true, if_false]
          rcases hl : (s p).last_child with _ | lc
          · simp [hpc, eq_comm]
          · dsimp only
            rcases hlcn : (s lc).next_sibling with _ | u
            · simp [hpc, eq_comm, hlcn]
            · simp [hpc, hlcn]
        · simp
      · simp
    · simp

theorem remove_child_ok_iff {s : State} {p c : Nat} {s' : State} :
    remove_child s p c = Except.ok s' ↔
      (s c).parent = some p ∧ (s p).first_child ≠ none ∧ (s p).last_child ≠ none ∧
        s' = removeUpd s p c := by
  unfold remove_child
  rcases hpar : (s c).parent with _ | q
  · simp
  · dsimp only
    by_cases hq : p = q
    · rw [if_pos hq]
      subst hq
      rcases hf : (s p).first_child with _ | fc
      · simp [hpar]
      · rcases hl : (s p).last_child with _ | lc
        · simp [hpar]
        · simp [hpar, eq_comm]
    · rw [if_neg hq]
      simp [hpar, Ne.symm hq]

/-! ### The structural invariant of reachable stores -/

/-- Update of the abstract child-list assignment at one parent. -/
def fupdate (kids : Nat → List Nat) (p : Nat) (l : List Nat) : Nat → List Nat :=
  fun q => if q = p then l else kids q

@[simp] theorem fupdate_same (kids : Nat → List Nat) (p : Nat) (l : List Nat) :
    fupdate kids p l p = l := by
  simp [fupdate]

theorem fupdate_ne (kids : Nat → List Nat) (p : Nat) (l : List Nat) {q : Nat} (h : q ≠ p) :
    fupdate kids p l q = kids q := by
  simp [fupdate, h]

/-- The coupling between a store and an abstract assignment of child lists:
every parent's boundary pointers delimit its list, the list is doubly linked,
membership coincides with the `parent` field, lists have no duplicates, no
node is its own child, and detached nodes have empty sibling links. -/
structure Inv (s : State) (kids : Nat → List Nat) : Prop where
  first_eq : ∀ p, (s p).first_child = headOr (kids p) none
  last_eq : ∀ p, (s p).last_child = lastOr (kids p) none
  links : ∀ p, seg (prevF s) (nextF s) none (kids p) none
  parentOf : ∀ p, ∀ c ∈ kids p, (s c).parent = some p
  memOf : ∀ c p, (s c).parent = some p → c ∈ kids p
  nodup : ∀ p, (kids p).Nodup
  selfFree : ∀ p, p ∉ kids p
  clean : ∀ d, (s d).parent = none → (s d).prev_sibling = none ∧ (s d).next_sibling = none

/-- A store satisfying the invariant for some assignment of child lists. -/
def Good (s : State) : Prop := ∃ kids, Inv s kids

theorem inv_init : Inv initState (fun _ => []) where
  first_eq := fun _ => rfl
  last_eq := fun _ => rfl
  links := fun _ => trivial
  parentOf := fun p d hd => absurd hd (List.not_mem_nil d)
  memOf := fun d q h => by simp [initState, empty] at h
  nodup := fun _ => List.nodup_nil
  selfFree := fun p => List.not_mem_nil p
  clean := fun _ _ => ⟨rfl, rfl⟩

theorem Inv.not_mem {s : State} {kids : Nat → List Nat} (hI : Inv s kids) {c : Nat}
    (h : (s c).parent = none) : ∀ q, c ∉ kids q := by
  intro q hm
  rw [hI.parentOf q c hm] at h
  cases h

theorem Inv.mem_unique {s : State} {kids : Nat → List Nat} (hI : Inv s kids) {d p q : Nat}
    (hp : d ∈ kids p) (hq : d ∈ kids q) : p = q := by
  have h1 := hI.parentOf p d hp
  have h2 := hI.parentOf q d hq
  rw [h1] at h2
  exact Option.some.inj h2

theorem Inv.last_split {s : State} {kids : Nat → List Nat} (hI : Inv s kids) {p lc : Nat}
    (h : (s p).last_child = some lc) : ∃ t, kids p = t ++ [lc] := by
  have hl := hI.last_eq p
  rw [h] at hl
  exact lastOr_eq_some hl.symm

theorem Inv.last_next_none {s : State} {kids : Nat → List Nat} (hI : Inv s kids) {p lc : Nat}
    (h : (s p).last_child = some lc) : (s lc).next_sibling = none := by
  obtain ⟨t, ht⟩ := hI.last_split h
  have hseg := hI.links p
  rw [ht, seg_append] at hseg
  exact hseg.2.2.1

/-- A successful `add_child` preserves the invariant: the child is appended
to the parent's list and no other list changes. -/
theorem add_child_inv {s : State} {kids : Nat → List Nat} {p c : Nat} {s' : State}
    (hI : Inv s kids) (hok : add_child s p c = Except.ok s') :
    Inv s' (fupdate kids p (kids p ++ [c])) := by
  rw [add_child_ok_iff] at hok
  obtain ⟨hpc, hpar, hpv, hnx, hcase⟩ := hok
  have hcnot : ∀ q, c ∉ kids q := hI.not_mem hpar
  rcases hcase with ⟨hl, rfl⟩ | ⟨lc, hl, hlcn, rfl⟩
  · -- the parent was childless
    have hkp : kids p = [] := by
      have h := hI.last_eq p
      rw [hl] at h
      exact lastOr_eq_none _ h.symm
    refine ⟨?_, ?_, ?_, ?_, ?_, ?_, ?_, ?_⟩
    · intro q
      rcases eq_or_ne q p with rfl | hq
      · rw [addUpdNone_first, if_pos rfl, fupdate_same, hkp]
        rfl
      · rw [addUpdNone_first, if_neg hq, fupdate_ne _ _ _ hq]
        exact hI.first_eq q
    · intro q
      rcases eq_or_ne q p with rfl | hq
      · rw [addUpdNone_last, if_pos rfl, fupdate_same, hkp]
        rfl
      · rw [addUpdNone_last, if_neg hq, fupdate_ne _ _ _ hq]
        exact hI.last_eq q
    · intro q
      rcases eq_or_ne q p with rfl | hq
      · rw [fupdate_same, hkp, List.nil_append]
        refine ⟨?_, ?_, trivial⟩
        · show (addUpdNone s q c c).prev_sibling = none
          rw [addUpdNone_prev]; exact hpv
        · show (addUpdNone s q c c).next_sibling = headOr [] none
          rw [addUpdNone_next]; exact hnx
      · rw [fupdate_ne _ _ _ hq]
        refine seg_congr (fun d _ => ⟨?_, ?_⟩) (hI.links q)
        · exact addUpdNone_prev s p c d
        · exact addUpdNone_next s p c d
    · intro q d hd
      rcases eq_or_ne q p with rfl | hq
      · rw [fupdate_same] at hd
        rcases List.mem_append.mp hd with hd1 | hd2
        · have hdc : d ≠ c := fun h => hcnot q (h ▸ hd1)
          rw [addUpdNone_parent, if_neg hdc]
          exact hI.parentOf q d hd1
        · rw [List.mem_singleton] at hd2
          subst hd2
          rw [addUpdNone_parent, if_pos rfl]
      · rw [fupdate_ne _ _ _ hq] at hd
        have hdc : d ≠ c := fun h => hcnot q (h ▸ hd)
        rw [addUpdNone_parent, if_neg hdc]
        exact hI.parentOf q d hd
    · intro d q hdq
      rw [addUpdNone_parent] at hdq
      by_cases hdc : d = c
      · subst hdc
        rw [if_pos rfl] at hdq
        have hqp : q = p := (Option.some.inj hdq).symm
        subst hqp
        rw [fupdate_same]
        exact List.mem_append_right _ (List.mem_singleton_self d)
      · rw [if_neg hdc] at hdq
        have hmem := hI.memOf d q hdq
        rcases eq_or_ne q p with rfl | hq
        · rw [fupdate_same]
          exact List.mem_append_left _ hmem
        · rw [fupdate_ne _ _ _ hq]
          exact hmem
    · intro q
      rcases eq_or_ne q p with rfl | hq
      · rw [fupdate_same]
        exact (hI.nodup q).append (List.nodup_singleton c)
          (fun a ha hb => hcnot q ((List.mem_singleton.mp hb) ▸ ha))
      · rw [fupdate_ne _ _ _ hq]
        exact hI.nodup q
    · intro q
      rcases eq_or_ne q p with rfl | hq
      · rw [fupdate_same]
        intro hmem
        rcases List.mem_append.mp hmem with h1 | h2
        · exact hI.selfFree q h1
        · exact hpc (List.mem_singleton.mp h2)
      · rw [fupdate_ne _ _ _ hq]
        exact hI.selfFree q
    · intro d hd
      rw [addUpdNone_parent] at hd
      by_cases hdc : d = c
      · rw [if_pos hdc] at hd
        cases hd
      · rw [if_neg hdc] at hd
        obtain ⟨h1, h2⟩ := hI.clean d hd
        rw [addUpdNone_prev, addUpdNone_next]
        exact ⟨h1, h2⟩
  · -- the parent had a last child `lc`
    obtain ⟨t, ht⟩ := hI.last_split hl
    have hlcmem : lc ∈ kids p := by
      rw [ht]
      exact List.mem_append_right _ (List.mem_singleton_self lc)
    have hlcc : lc ≠ c := fun h => hcnot p (h ▸ hlcmem)
    have hnt : lc ∉ t := by
      have hnd := hI.nodup p
      rw [ht] at hnd
      exact fun hm => (List.nodup_append.mp hnd).2.2 hm (List.mem_singleton_self lc)
    refine ⟨?_, ?_, ?_, ?_, ?_, ?_, ?_, ?_⟩
    · intro q
      rcases eq_or_ne q p with rfl | hq
      · rw [addUpdSome_first, fupdate_same, hI.first_eq q, ht]
        simp [headOr_append]
      · rw [addUpdSome_first, fupdate_ne _ _ _ hq]
        exact hI.first_eq q
    · intro q
      rcases eq_or_ne q p with rfl | hq
      · rw [addUpdSome_last, if_pos rfl, fupdate_same, lastOr_snoc]
      · rw [addUpdSome_last, if_neg hq, fupdate_ne _ _ _ hq]
        exact hI.last_eq q
    · intro q
      rcases eq_or_ne q p with rfl | hq
      · rw [fupdate_same, ht, List.append_assoc]
        have hA := hI.links q
        rw [ht, seg_append] at hA
        refine (seg_append _ _ _ _ _ _).mpr ⟨?_, ?_⟩
        · refine seg_congr (fun d hd => ⟨?_, ?_⟩) hA.1
          · have hdmem : d ∈ kids q := by
              rw [ht]; exact List.mem_append_left _ hd
            have hdc : d ≠ c := fun h => hcnot q (h ▸ hdmem)
            show (addUpdSome s q c lc d).prev_sibling = (s d).prev_sibling
            rw [addUpdSome_prev, if_neg hdc]
          · have hdlc : d ≠ lc := fun h => hnt (h ▸ hd)
            show (addUpdSome s q c lc d).next_sibling = (s d).next_sibling
            rw [addUpdSome_next, if_neg hdlc]
        · have hlcprev : (s lc).prev_sibling = lastOr t none := hA.2.1
          refine ⟨?_, ?_, ?_, ?_, trivial⟩
          · show (addUpdSome s q c lc lc).prev_sibling = lastOr t none
            rw [addUpdSome_prev, if_neg hlcc]
            exact hlcprev
          · show (addUpdSome s q c lc lc).next_sibling = headOr [c] none
            rw [addUpdSome_next, if_pos rfl]
            rfl
          · show (addUpdSome s q c lc c).prev_sibling = some lc
            rw [addUpdSome_prev, if_pos rfl]
          · show (addUpdSome s q c lc c).next_sibling = headOr [] none
            rw [addUpdSome_next, if_neg (fun h => hlcc h.symm)]
            exact hnx
      · rw [fupdate_ne _ _ _ hq]
        refine seg_congr (fun d hd => ⟨?_, ?_⟩) (hI.links q)
        · have hdc : d ≠ c := fun h => hcnot q (h ▸ hd)
          show (addUpdSome s p c lc d).prev_sibling = (s d).prev_sibling
          rw [addUpdSome_prev, if_neg hdc]
        · have hdlc : d ≠ lc := fun h => hq (hI.mem_unique (h ▸ hd) hlcmem)
          show (addUpdSome s p c lc d).next_sibling = (s d).next_sibling
          rw [addUpdSome_next, if_neg hdlc]
    · intro q d hd
      rcases eq_or_ne q p with rfl | hq
      · rw [fupdate_same] at hd
        rcases List.mem_append.mp hd with hd1 | hd2
        · have hdc : d ≠ c := fun h => hcnot q (h ▸ hd1)
          rw [addUpdSome_parent, if_neg hdc]
          exact hI.parentOf q d hd1
        · rw [List.mem_singleton] at hd2
          subst hd2
          rw [addUpdSome_parent, if_pos rfl]
      · rw [fupdate_ne _ _ _ hq] at hd
        have hdc : d ≠ c := fun h => hcnot q (h ▸ hd)
        rw [addUpdSome_parent, if_neg hdc]
        exact hI.parentOf q d hd
    · intro d q hdq
      rw [addUpdSome_parent] at hdq
      by_cases hdc : d = c
      · subst hdc
        rw [if_pos rfl] at hdq
        have hqp : q = p := (Option.some.inj hdq).symm
        subst hqp
        rw [fupdate_same]
        exact List.mem_append_right _ (List.mem_singleton_self d)
      · rw [if_neg hdc] at hdq
        have hmem := hI.memOf d q hdq
        rcases eq_or_ne q p with rfl | hq
        · rw [fupdate_same]
          exact List.mem_append_left _ hmem
        · rw [fupdate_ne _ _ _ hq]
          exact hmem
    · intro q
      rcases eq_or_ne q p with rfl | hq
      · rw [fupdate_same]
        exact (hI.nodup q).append (List.nodup_singleton c)
          (fun a ha hb => hcnot q ((List.mem_singleton.mp hb) ▸ ha))
      · rw [fupdate_ne _ _ _ hq]
        exact hI.nodup q
    · intro q
      rcases eq_or_ne q p with rfl | hq
      · rw [fupdate_same]
        intro hmem
        rcases List.mem_append.mp hmem with h1 | h2
        · exact hI.selfFree q h1
        · exact hpc (List.mem_singleton.mp h2)
      · rw [fupdate_ne _ _ _ hq]
        exact hI.selfFree q
    · intro d hd
      rw [addUpdSome_parent] at hd
      by_cases hdc : d = c
      · rw [if_pos hdc] at hd
        cases hd
      · rw [if_neg hdc] at hd
        obtain ⟨h1, h2⟩ := hI.clean d hd
        have hdlc : d ≠ lc := by
          intro h
          have hp2 := hI.parentOf p lc hlcmem
          rw [← h, hd] at hp2
          cases hp2
        rw [addUpdSome_prev, if_neg hdc, addUpdSome_next, if_neg hdlc]
        exact ⟨h1, h2⟩

/-- A successful `remove_child` preserves the invariant: the child is
deleted from its position in the parent's list and no other list changes. -/
theorem remove_child_inv {s : State} {kids : Nat → List Nat} {p c : Nat} {s' : State}
    (hI : Inv s kids) (hok : remove_child s p c = Except.ok s') :
    ∃ l1 l2, kids p = l1 ++ c :: l2 ∧ Inv s' (fupdate kids p (l1 ++ l2)) := by
  rw [remove_child_ok_iff] at hok
  obtain ⟨hpar, hfc, hlc, rfl⟩ := hok
  have hcmem : c ∈ kids p := hI.memOf c p hpar
  obtain ⟨l1, l2, hsplit⟩ := List.append_of_mem hcmem
  refine ⟨l1, l2, hsplit, ?_⟩
  have hnd : (l1 ++ c :: l2).Nodup := hsplit ▸ hI.nodup p
  have hnd2 : (c :: (l1 ++ l2)).Nodup := List.nodup_middle.mp hnd
  have hcnotin : c ∉ l1 ++ l2 := (List.nodup_cons.mp hnd2).1
  have hnd12 : (l1 ++ l2).Nodup := (List.nodup_cons.mp hnd2).2
  have hdisj : ∀ d, d ∈ l1 → d ∈ l2 → False :=
    fun d h1 h2 => (List.nodup_append.mp hnd12).2.2 h1 h2
  have hcl1 : c ∉ l1 := fun h => hcnotin (List.mem_append_left _ h)
  have hcl2 : c ∉ l2 := fun h => hcnotin (List.mem_append_right _ h)
  have hmem_l1 : ∀ d ∈ l1, d ∈ kids p := fun d hd => by
    rw [hsplit]; exact List.mem_append_left _ hd
  have hmem_l2 : ∀ d ∈ l2, d ∈ kids p := fun d hd => by
    rw [hsplit]; exact List.mem_append_right _ (List.mem_cons_of_mem _ hd)
  have hseg := hI.links p
  rw [hsplit, seg_append] at hseg
  have hseg1 : seg (prevF s) (nextF s) none l1 (some c) := hseg.1
  have hprevc : (s c).prev_sibling = lastOr l1 none := hseg.2.1
  have hnextc : (s c).next_sibling = headOr l2 none := hseg.2.2.1
  have hseg3 : seg (prevF s) (nextF s) (some c) l2 none := hseg.2.2.2
  have hprev_mem : ∀ v, (s c).prev_sibling = some v → v ∈ l1 := by
    intro v hv
    rw [hprevc] at hv
    obtain ⟨t, ht⟩ := lastOr_eq_some hv
    rw [ht]
    exact List.mem_append_right _ (List.mem_singleton_self v)
  have hnext_mem : ∀ w, (s c).next_sibling = some w → w ∈ l2 := by
    intro w hw
    rw [hnextc] at hw
    obtain ⟨t, ht⟩ := headOr_eq_some hw
    rw [ht]
    exact List.mem_cons_self w t
  have hnext_not_l1 : ∀ d, d ∈ l1 → (s c).next_sibling ≠ some d :=
    fun d hd h => hdisj d hd (hnext_mem d h)
  have hprev_not_l2 : ∀ d, d ∈ l2 → (s c).prev_sibling ≠ some d :=
    fun d hd h => hdisj d (hprev_mem d h) hd
  refine ⟨?_, ?_, ?_, ?_, ?_, ?_, ?_, ?_⟩
  · -- first_eq
    intro q
    rcases eq_or_ne q p with rfl | hq
    · rw [removeUpd_first, fupdate_same]
      have hfirst : (s q).first_child = headOr l1 (some c) := by
        rw [hI.first_eq q, hsplit, headOr_append]
        rfl
      rcases l1 with _ | ⟨a, t1⟩
      · rw [if_pos (⟨rfl, hfirst⟩ : q = q ∧ (s q).first_child = some c), hnextc]
        rfl
      · rw [headOr_cons] at hfirst
        have hac : a ≠ c := fun h => hcl1 (by rw [← h]; exact List.mem_cons_self a t1)
        rw [if_neg (fun hh => hac (Option.some.inj (hfirst.symm.trans hh.2))), hfirst]
        rfl
    · rw [removeUpd_first, fupdate_ne _ _ _ hq, if_neg (fun hh => hq hh.1)]
      exact hI.first_eq q
  · -- last_eq
    intro q
    rcases eq_or_ne q p with rfl | hq
    · rw [removeUpd_last, fupdate_same]
      have hlast : (s q).last_child = lastOr l2 (some c) := by
        rw [hI.last_eq q, hsplit, lastOr_append, lastOr_cons]
      rcases eq_nil_or_append l2 with rfl | ⟨t2, b, rfl⟩
      · rw [if_pos (⟨rfl, hlast⟩ : q = q ∧ (s q).last_child = some c), hprevc,
          List.append_nil]
      · rw [lastOr_snoc] at hlast
        have hbc : b ≠ c := fun h => hcl2
          (by rw [← h]; exact List.mem_append_right _ (List.mem_singleton_self b))
        rw [if_neg (fun hh => hbc (Option.some.inj (hlast.symm.trans hh.2))), hlast,
          show l1 ++ (t2 ++ [b]) = (l1 ++ t2) ++ [b] from (List.append_assoc _ _ _).symm,
          lastOr_snoc]
    · rw [removeUpd_last, fupdate_ne _ _ _ hq, if_neg (fun hh => hq hh.1)]
      exact hI.last_eq q
  · -- links
    intro q
    rcases eq_or_ne q p with rfl | hq
    · rw [fupdate_same]
      refine (seg_append _ _ _ _ _ _).mpr ⟨?_, ?_⟩
      · -- left part: l1 relinked to headOr l2 none
        rcases eq_nil_or_append l1 with rfl | ⟨t1, v, rfl⟩
        · exact trivial
        · have hndl1 : (t1 ++ [v]).Nodup := (List.nodup_append.mp hnd).1
          have hvnot : v ∉ t1 :=
            fun hm => (List.nodup_append.mp hndl1).2.2 hm (List.mem_singleton_self v)
          have hvc : v ≠ c := fun h => hcl1
            (by rw [← h]; exact List.mem_append_right _ (List.mem_singleton_self v))
          have hpcv : (s c).prev_sibling = some v := by rw [hprevc, lastOr_snoc]
          rw [seg_append] at hseg1
          refine (seg_append _ _ _ _ _ _).mpr ⟨?_, ?_⟩
          · refine seg_congr (fun d hd => ⟨?_, ?_⟩) hseg1.1
            · have hdc : d ≠ c := fun h => hcl1
                (by rw [← h]; exact List.mem_append_left _ hd)
              show (removeUpd s q c d).prev_sibling = (s d).prev_sibling
              rw [removeUpd_prev, if_neg hdc,
                if_neg (hnext_not_l1 d (List.mem_append_left _ hd))]
            · have hdc : d ≠ c := fun h => hcl1
                (by rw [← h]; exact List.mem_append_left _ hd)
              show (removeUpd s q c d).next_sibling = (s d).next_sibling
              rw [removeUpd_next, if_neg hdc, hpcv,
                if_neg (fun h => hvnot (by rw [Option.some.inj h]; exact hd))]
          · refine ⟨?_, ?_, trivial⟩
            · show (removeUpd s q c v).prev_sibling = lastOr t1 none
              rw [removeUpd_prev, if_neg hvc,
                if_neg (hnext_not_l1 v (List.mem_append_right _ (List.mem_singleton_self v)))]
              exact hseg1.2.1
            · show (removeUpd s q c v).next_sibling = headOr [] (headOr l2 none)
              rw [removeUpd_next, if_neg hvc, if_pos hpcv]
              exact hnextc
      · -- right part: l2 relinked from lastOr l1 none
        rcases l2 with _ | ⟨w, t2⟩
        · exact trivial
        · have hndl2 : (w :: t2).Nodup :=
            (List.nodup_cons.mp (List.nodup_append.mp hnd).2.1).2
          have hwnot : w ∉ t2 := (List.nodup_cons.mp hndl2).1
          have hwc : w ≠ c := fun h => hcl2 (by rw [← h]; exact List.mem_cons_self w t2)
          have hncw : (s c).next_sibling = some w := by rw [hnextc]; rfl
          refine ⟨?_, ?_, ?_⟩
          · show (removeUpd s q c w).prev_sibling = lastOr l1 none
            rw [removeUpd_prev, if_neg hwc, if_pos hncw]
            exact hprevc
          · show (removeUpd s q c w).next_sibling = headOr t2 none
            rw [removeUpd_next, if_neg hwc,
              if_neg (hprev_not_l2 w (List.mem_cons_self w t2))]
            exact hseg3.2.1
          · refine seg_congr (fun d hd => ⟨?_, ?_⟩) hseg3.2.2
            · have hdc : d ≠ c := fun h => hcl2
                (by rw [← h]; exact List.mem_cons_of_mem _ hd)
              show (removeUpd s q c d).prev_sibling = (s d).prev_sibling
              rw [removeUpd_prev, if_neg hdc, hncw,
                if_neg (fun h => hwnot (by rw [Option.some.inj h]; exact hd))]
            · have hdc : d ≠ c := fun h => hcl2
                (by rw [← h]; exact List.mem_cons_of_mem _ hd)
              show (removeUpd s q c d).next_sibling = (s d).next_sibling
              rw [removeUpd_next, if_neg hdc,
                if_neg (hprev_not_l2 d (List.mem_cons_of_mem _ hd))]
    · rw [fupdate_ne _ _ _ hq]
      refine seg_congr (fun d hd => ⟨?_, ?_⟩) (hI.links q)
      · have hdc : d ≠ c := fun h => hq (hI.mem_unique hd (by rw [h]; exact hcmem))
        show (removeUpd s p c d).prev_sibling = (s d).prev_sibling
        rw [removeUpd_prev, if_neg hdc,
          if_neg (fun h => hq (hI.mem_unique hd (hmem_l2 d (hnext_mem d h))))]
      · have hdc : d ≠ c := fun h => hq (hI.mem_unique hd (by rw [h]; exact hcmem))
        show (removeUpd s p c d).next_sibling = (s d).next_sibling
        rw [removeUpd_next, if_neg hdc,
          if_neg (fun h => hq (hI.mem_unique hd (hmem_l1 d (hprev_mem d h))))]
  · -- parentOf
    intro q d hd
    rcases eq_or_ne q p with rfl | hq
    · rw [fupdate_same] at hd
      have hdc : d ≠ c := fun h => hcnotin (by rw [← h]; exact hd)
      rw [removeUpd_parent, if_neg hdc]
      refine hI.parentOf q d ?_
      rw [hsplit]
      rcases List.mem_append.mp hd with h1 | h2
      · exact List.mem_append_left _ h1
      · exact List.mem_append_right _ (List.mem_cons_of_mem _ h2)
    · rw [fupdate_ne _ _ _ hq] at hd
      have hdc : d ≠ c := fun h => hq (hI.mem_unique hd (by rw [h]; exact hcmem))
      rw [removeUpd_parent, if_neg hdc]
      exact hI.parentOf q d hd
  · -- memOf
    intro d q hdq
    rw [removeUpd_parent] at hdq
    by_cases hdc : d = c
    · rw [if_pos hdc] at hdq
      cases hdq
    · rw [if_neg hdc] at hdq
      have hmem := hI.memOf d q hdq
      rcases eq_or_ne q p with rfl | hq
      · rw [fupdate_same]
        rw [hsplit] at hmem
        rcases List.mem_append.mp hmem with h1 | h2
        · exact List.mem_append_left _ h1
        · rcases List.mem_cons.mp h2 with h3 | h4
          · exact absurd h3 hdc
          · exact List.mem_append_right _ h4
      · rw [fupdate_ne _ _ _ hq]
        exact hmem
  · -- nodup
    intro q
    rcases eq_or_ne q p with rfl | hq
    · rw [fupdate_same]
      exact hnd12
    · rw [fupdate_ne _ _ _ hq]
      exact hI.nodup q
  · -- selfFree
    intro q
    rcases eq_or_ne q p with rfl | hq
    · rw [fupdate_same]
      intro hmem
      refine hI.selfFree q ?_
      rw [hsplit]
      rcases List.mem_append.mp hmem with h1 | h2
      · exact List.mem_append_left _ h1
      · exact List.mem_append_right _ (List.mem_cons_of_mem _ h2)
    · rw [fupdate_ne _ _ _ hq]
      exact hI.selfFree q
  · -- clean
    intro d hd
    rw [removeUpd_parent] at hd
    by_cases hdc : d = c
    · subst hdc
      refine ⟨?_, ?_⟩
      · rw [removeUpd_prev, if_pos rfl]
      · rw [removeUpd_next, if_pos rfl]
    · rw [if_neg hdc] at hd
      obtain ⟨h1, h2⟩ := hI.clean d hd
      refine ⟨?_, ?_⟩
      · rw [removeUpd_prev, if_neg hdc, if_neg ?_]
        · exact h1
        · intro h
          have hp2 := hI.parentOf p d (hmem_l2 d (hnext_mem d h))
          rw [hd] at hp2
          cases hp2
      · rw [removeUpd_next, if_neg hdc, if_neg ?_]
        · exact h2
        · intro h
          have hp2 := hI.parentOf p d (hmem_l1 d (hprev_mem d h))
          rw [hd] at hp2
          cases hp2

theorem reachable_good {s : State} (h : Reachable s) : Good s := by
  induction h with
  | init => exact ⟨fun _ => [], inv_init⟩
  | add hr hok ih =>
      obtain ⟨kids, hI⟩ := ih
      exact ⟨_, add_child_inv hI hok⟩
  | remove hr hok ih =>
      obtain ⟨kids, hI⟩ := ih
      obtain ⟨l1, l2, hsp, hI2⟩ := remove_child_inv hI hok
      exact ⟨_, hI2⟩

/-! ### Traversal lemmas -/

/-- The children on which the visitor `f` is invoked: all of them in order
up to and including the first one on which `f` answers `false`. -/
def visitsSpec (f : Nat → Bool) : List Nat → List Nat
  | [] => []
  | c :: l => if f c then c :: visitsSpec f l else [c]

theorem visitsSpec_length (f : Nat → Bool) (l : List Nat) :
    (visitsSpec f l).length ≤ l.length := by
  induction l with
  | nil => simp [visitsSpec]
  | cons c t ih =>
      cases h : f c
      · simp [visitsSpec, h]
      · simp only [visitsSpec, h, if_true, List.length_cons]
        exact Nat.succ_le_succ ih

theorem chainEval_stable {g : Nat → Option Nat} :
    ∀ {o : Option Nat} {l : List Nat} {fuel0 : Nat},
      chainEval g o fuel0 = some l → ∀ fuel, l.length ≤ fuel → chainEval g o fuel = some l := by
  intro o l fuel0
  induction fuel0 generalizing o l with
  | zero =>
      intro h fuel _
      cases o with
      | none =>
          rw [chainEval_none] at h
          rw [chainEval_none]
          exact h
      | some c => simp [chainEval] at h
  | succ k ih =>
      intro h fuel hf
      cases o with
      | none =>
          rw [chainEval_none] at h
          rw [chainEval_none]
          exact h
      | some c =>
          rw [chainEval_some] at h
          rcases ht : chainEval g (g c) k with _ | t
          · rw [ht] at h
            simp at h
          · rw [ht] at h
            obtain rfl : l = c :: t := (Option.some.inj h).symm
            cases fuel with
            | zero => simp at hf
            | succ m =>
                rw [chainEval_some, ih ht m (Nat.succ_le_succ_iff.mp hf)]
                rfl

theorem eachRun_eq_visits {s : State} {f : Nat → Bool} :
    ∀ {o : Option Nat} {l : List Nat} {fuel : Nat},
      chainEval (nextF s) o fuel = some l →
        eachChildRun s f o fuel = some (visitsSpec f l) := by
  intro o l fuel
  induction fuel generalizing o l with
  | zero =>
      intro h
      cases o with
      | none =>
          rw [chainEval_none] at h
          obtain rfl := Option.some.inj h
          rfl
      | some c => simp [chainEval] at h
  | succ k ih =>
      intro h
      cases o with
      | none =>
          rw [chainEval_none] at h
          obtain rfl := Option.some.inj h
          rfl
      | some c =>
          rw [chainEval_some] at h
          rcases ht : chainEval (nextF s) (nextF s c) k with _ | t
          · rw [ht] at h
            simp at h
          · rw [ht] at h
            obtain rfl : l = c :: t := (Option.some.inj h).symm
            show (if f c then (eachChildRun s f (nextF s c) k).map (fun l => c :: l)
                else some [c]) = some (visitsSpec f (c :: t))
            by_cases hfc : f c
            · rw [if_pos hfc, ih ht]
              simp [visitsSpec, hfc]
            · rw [if_neg hfc]
              simp [visitsSpec, hfc]

/-- Over an invariant-satisfying store, `each_child` invokes the visitor on
exactly the prefix of the child list allowed by the visitor's answers. -/
theorem inv_each_child {s : State} {kids : Nat → List Nat} (hI : Inv s kids) (p : Nat)
    (f : Nat → Bool) (fuel : Nat) (hfuel : (kids p).length ≤ fuel) :
    each_child s p f fuel = some (visitsSpec f (kids p)) := by
  have hchain : chainEval (nextF s) ((s p).first_child) fuel = some (kids p) := by
    rw [hI.first_eq p]
    exact seg_chainEval (hI.links p) fuel hfuel
  exact eachRun_eq_visits hchain

/-! ### Success and evaluation helpers for `add_child` -/

theorem add_child_ok_none {s : State} {p c : Nat} (hpc : p ≠ c)
    (h1 : (s c).parent = none) (h2 : (s c).prev_sibling = none)
    (h3 : (s c).next_sibling = none) (h4 : (s p).last_child = none) :
    add_child s p c = Except.ok (addUpdNone s p c) :=
  add_child_ok_iff.mpr ⟨hpc, h1, h2, h3, Or.inl ⟨h4, rfl⟩⟩

theorem add_child_ok_some {s : State} {p c lc : Nat} (hpc : p ≠ c)
    (h1 : (s c).parent = none) (h2 : (s c).prev_sibling = none)
    (h3 : (s c).next_sibling = none) (h4 : (s p).last_child = some lc)
    (h5 : (s lc).next_sibling = none) :
    add_child s p c = Except.ok (addUpdSome s p c lc) :=
  add_child_ok_iff.mpr ⟨hpc, h1, h2, h3, Or.inr ⟨lc, h4, h5, rfl⟩⟩

/-- After the two leading guards pass, `add_child` reduces to the sibling
checks and the append, with every field read from the original store. -/
theorem add_child_eval (s : State) (p c : Nat) (hpc : p ≠ c)
    (hpar : (s c).parent = none) :
    add_child s p c =
      if (s c).prev_sibling.isSome then
        Except.error "assertion failed: child_tf.prev_sibling.is_none()"
      else if (s c).next_sibling.isSome then
        Except.error "assertion failed: child_tf.next_sibling.is_none()"
      else
        match (s p).last_child with
        | none => Except.ok (addUpdNone s p c)
        | some lc =>
          if (s lc).next_sibling.isSome then
            Except.error "assertion failed: lc_tf.next_sibling.is_none()"
          else Except.ok (addUpdSome s p c lc) := by
  unfold add_child
  have hprev1 : ∀ y, (State.set s c { (s c) with parent := some p } y).prev_sibling =
      (s y).prev_sibling := by
    intro y; by_cases hy : y = c <;> simp [State.set, hy]
  have hnext1 : ∀ y, (State.set s c { (s c) with parent := some p } y).next_sibling =
      (s y).next_sibling := by
    intro y; by_cases hy : y = c <;> simp [State.set, hy]
  have hlast1 : ∀ y, (State.set s c { (s c) with parent := some p } y).last_child =
      (s y).last_child := by
    intro y; by_cases hy : y = c <;> simp [State.set, hy]
  rw [if_neg hpc, hpar]
  dsimp only
  simp only [hprev1, hnext1, hlast1]

/-! ### Concrete stores used to instantiate the theorems -/

/-- Node 0 with the single child 1, built by `add_child` from fresh nodes. -/
def sP1 : State := addUpdNone initState 0 1

/-- Node 0 with children 1, 2. -/
def sP2 : State := addUpdSome sP1 0 2 1

/-- Node 0 with children 1, 2, 3 (the test fixture `parent_with_3_children`). -/
def sP3 : State := addUpdSome sP2 0 3 2

/-- The empty child-list assignment. -/
def kidsNil : Nat → List Nat := fun _ => []

def kidsP1 : Nat → List Nat := fupdate kidsNil 0 (kidsNil 0 ++ [1])

def kidsP2 : Nat → List Nat := fupdate kidsP1 0 (kidsP1 0 ++ [2])

def kidsP3 : Nat → List Nat := fupdate kidsP2 0 (kidsP2 0 ++ [3])

theorem invP1 : Inv sP1 kidsP1 :=
  @add_child_inv initState kidsNil 0 1 sP1 inv_init rfl

theorem invP2 : Inv sP2 kidsP2 :=
  @add_child_inv sP1 kidsP1 0 2 sP2 invP1 rfl

theorem invP3 : Inv sP3 kidsP3 :=
  @add_child_inv sP2 kidsP2 0 3 sP3 invP2 rfl

/-- A corrupted store: node 0 claims a last child 2 whose `next_sibling` is
dangling.  Unreachable through the API, but a legal input to `add_child`. -/
def s5state : State :=
  State.set (State.set initState 0 { empty with last_child := some 2 }) 2
    { empty with next_sibling := some 3 }

/-- A corrupted store: node 0 is its own parent and its own only child. -/
def s9state : State :=
  State.set initState 0
    { empty with parent := some 0, first_child := some 0, last_child := some 0 }

/-- A store in which node 1 claims parent 2. -/
def s6state : State := State.set initState 1 { empty with parent := some 2 }

/-! ### The claims -/

/-- C10: `get_parent` and `parent` are extensionally equal — for every store
(that is, every capability implementation) and node they return the same
optional handle. -/
theorem get_parent_eq_parent : ∀ (s : State) (node : Nat),
    get_parent s node = parent s node :=
  fun _ _ => rfl

/-- C6: `remove_child` fails with `"Not a child"` when the child's stored
parent is `none`, fails with the distinguishable `tree_eq` assertion failure
when the stored parent is a different node, and reaches the detach path only
when the stored parent equals the given parent. -/
theorem remove_child_guard_errors (s : State) (p c q : Nat) (s' : State) :
    ((s c).parent = none → remove_child s p c = Except.error "Not a child") ∧
    ((s c).parent = some q → q ≠ p →
      remove_child s p c = Except.error "assertion failed: tree_eq(parent, parent_n)") ∧
    (remove_child s p c = Except.ok s' → (s c).parent = some p) := by
  refine ⟨?_, ?_, ?_⟩
  · intro h
    unfold remove_child
    rw [h]
  · intro h hqp
    unfold remove_child
    rw [h]
    dsimp only
    rw [if_neg (fun he => hqp he.symm)]
  · intro h
    exact (remove_child_ok_iff.mp h).1

/-- Witness for C6 at concrete stores. -/
theorem remove_child_guard_errors_witness :
    remove_child initState 0 1 = Except.error "Not a child" ∧
    remove_child s6state 0 1 =
      Except.error "assertion failed: tree_eq(parent, parent_n)" ∧
    (s6state 1).parent = some 2 := by
  refine ⟨?_, ?_, rfl⟩
  · exact (remove_child_guard_errors initState 0 1 2 initState).1 rfl
  · exact (remove_child_guard_errors s6state 0 1 2 initState).2.1 rfl (by decide)

/-- C3: under the stated preconditions, a successful `add_child` performs
exactly the tail-append updates: the child's parent becomes the parent, a
childless parent gains the child as `first_child`, otherwise the old last
child points forward to the child and the child points back to it, and the
parent's `last_child` becomes the child. -/
theorem add_child_tail_append (s : State) (p c : Nat) (s' : State)
    (hpc : p ≠ c) (hpar : (s c).parent = none) (hpv : (s c).prev_sibling = none)
    (hnx : (s c).next_sibling = none) (hok : add_child s p c = Except.ok s') :
    (s' c).parent = some p ∧
    ((s p).last_child = none → (s' p).first_child = some c) ∧
    (∀ lc, (s p).last_child = some lc →
      (s' lc).next_sibling = some c ∧ (s' c).prev_sibling = some lc) ∧
    (s' p).last_child = some c := by
  rw [add_child_ok_iff] at hok
  obtain ⟨-, -, -, -, hcase⟩ := hok
  rcases hcase with ⟨hl, rfl⟩ | ⟨lc, hl, hlcn, rfl⟩
  · refine ⟨?_, ?_, ?_, ?_⟩
    · rw [addUpdNone_parent, if_pos rfl]
    · intro _
      rw [addUpdNone_first, if_pos rfl]
    · intro lc hlc
      rw [hl] at hlc
      cases hlc
    · rw [addUpdNone_last, if_pos rfl]
  · refine ⟨?_, ?_, ?_, ?_⟩
    · rw [addUpdSome_parent, if_pos rfl]
    · intro hnone
      rw [hl] at hnone
      cases hnone
    · intro lc2 hlc2
      rw [hl] at hlc2
      obtain rfl : lc = lc2 := Option.some.inj hlc2
      refine ⟨?_, ?_⟩
      · rw [addUpdSome_next, if_pos rfl]
      · rw [addUpdSome_prev, if_pos rfl]
    · rw [addUpdSome_last, if_pos rfl]

/-- Witness for C3: appending a fresh node under a fresh parent. -/
theorem add_child_tail_append_witness :
    ((addUpdNone initState 0 1) 1).parent = some 0 ∧
    ((addUpdNone initState 0 1) 0).first_child = some 1 ∧
    ((addUpdNone initState 0 1) 0).last_child = some 1 := by
  have h := add_child_tail_append initState 0 1 (addUpdNone initState 0 1)
    (by decide) rfl rfl rfl rfl
  exact ⟨h.1, h.2.1 rfl, h.2.2.2⟩

/-- C9 counterexample: in the corrupted store where node 0 is its own parent
and only child, `remove_child(0, 0)` succeeds yet changes node 0's own
`first_child` from `some 0` to `none`, so the claim fails as stated when
`tree_eq(p, c)` holds. -/
theorem remove_child_frame_cex :
    isOkE (remove_child s9state 0 0) = true ∧
    (remove_child s9state 0 0).map (fun t => (t 0).first_child) = Except.ok none ∧
    (s9state 0).first_child = some 0 :=
  ⟨rfl, rfl, rfl⟩

/-- C9 (amended with `tree_eq(parent, child)` false): a successful
`remove_child` keeps the child's `first_child`/`last_child` and leaves every
node other than the child, the parent, and the child's two neighbouring
siblings completely unchanged. -/
theorem remove_child_frame (s : State) (p c : Nat) (s' : State) (hpc : p ≠ c)
    (hok : remove_child s p c = Except.ok s') :
    (s' c).first_child = (s c).first_child ∧ (s' c).last_child = (s c).last_child ∧
    ∀ d, d ≠ c → d ≠ p → (s c).prev_sibling ≠ some d → (s c).next_sibling ≠ some d →
      s' d = s d := by
  rw [remove_child_ok_iff] at hok
  obtain ⟨-, -, -, rfl⟩ := hok
  have hcp : c ≠ p := fun h => hpc h.symm
  refine ⟨?_, ?_, ?_⟩
  · rw [removeUpd_first, if_neg (fun hh => hcp hh.1)]
  · rw [removeUpd_last, if_neg (fun hh => hcp hh.1)]
  · intro d hdc hdp hdpv hdnx
    ext
    · rw [removeUpd_parent, if_neg hdc]
    · rw [removeUpd_first, if_neg (fun hh => hdp hh.1)]
    · rw [removeUpd_last, if_neg (fun hh => hdp hh.1)]
    · rw [removeUpd_prev, if_neg hdc, if_neg hdnx]
    · rw [removeUpd_next, if_neg hdc, if_neg hdpv]

/-- Witness for C9 at a concrete removal. -/
theorem remove_child_frame_witness :
    ((removeUpd sP1 0 1) 1).first_child = (sP1 1).first_child ∧
    ((removeUpd sP1 0 1) 1).last_child = (sP1 1).last_child ∧
    removeUpd sP1 0 1 5 = sP1 5 := by
  have h := remove_child_frame sP1 0 1 (removeUpd sP1 0 1) (by decide) rfl
  exact ⟨h.1, h.2.1, h.2.2 5 (by decide) (by decide) (by decide) (by decide)⟩

/-- C4 counterexample: after a successful `remove_child(0, 1)` in a concrete
tree, `add_child(p2, 1)` with `p2 = 1` (a node, as the claim allows) fails
with the self-parenting error instead of succeeding. -/
theorem detach_then_reattach_cex :
    remove_child sP1 0 1 = Except.ok (removeUpd sP1 0 1) ∧
    isOkE (add_child (removeUpd sP1 0 1) 1 1) = false :=
  ⟨rfl, rfl⟩

/-- C4 (amended with `tree_eq(p2, c)` false and an invariant-satisfying
store): after a successful `remove_child(p, c)` the child's `parent`,
`prev_sibling` and `next_sibling` are all `none`, and `add_child(p2, c)`
succeeds for every node `p2` other than `c` itself. -/
theorem detach_then_reattach (s : State) (kids : Nat → List Nat) (p c : Nat) (s' : State)
    (hI : Inv s kids) (hok : remove_child s p c = Except.ok s') (p2 : Nat) (hp2 : p2 ≠ c) :
    (s' c).parent = none ∧ (s' c).prev_sibling = none ∧ (s' c).next_sibling = none ∧
    ∃ s2, add_child s' p2 c = Except.ok s2 := by
  obtain ⟨l1, l2, hsplit, hI2⟩ := remove_child_inv hI hok
  rw [remove_child_ok_iff] at hok
  obtain ⟨hpar, -, -, rfl⟩ := hok
  have hc1 : ((removeUpd s p c) c).parent = none := by
    rw [removeUpd_parent, if_pos rfl]
  have hc2 : ((removeUpd s p c) c).prev_sibling = none := by
    rw [removeUpd_prev, if_pos rfl]
  have hc3 : ((removeUpd s p c) c).next_sibling = none := by
    rw [removeUpd_next, if_pos rfl]
  refine ⟨hc1, hc2, hc3, ?_⟩
  rcases hl : ((removeUpd s p c) p2).last_child with _ | lc
  · exact ⟨_, add_child_ok_none hp2 hc1 hc2 hc3 hl⟩
  · exact ⟨_, add_child_ok_some hp2 hc1 hc2 hc3 hl (hI2.last_next_none hl)⟩

/-- Witness for C4: detaching the only child and re-attaching it to the same
parent. -/
theorem detach_then_reattach_witness :
    ((removeUpd sP1 0 1) 1).parent = none ∧
    ((removeUpd sP1 0 1) 1).prev_sibling = none ∧
    ((removeUpd sP1 0 1) 1).next_sibling = none ∧
    ∃ s2, add_child (removeUpd sP1 0 1) 0 1 = Except.ok s2 :=
  detach_then_reattach sP1 kidsP1 0 1 (removeUpd sP1 0 1) invP1 rfl 0 (by decide)

/-- C7: over an invariant-satisfying store, `each_child` invokes the visitor
once per child in first-to-last order, and when the visitor answers `false`
traversal stops immediately: the invocation list is exactly the prefix of
the child list up to and including the first refusal. -/
theorem each_child_visits_in_order (s : State) (kids : Nat → List Nat) (hI : Inv s kids)
    (p : Nat) (f : Nat → Bool) (fuel : Nat) (hfuel : (kids p).length ≤ fuel) :
    each_child s p f fuel = some (visitsSpec f (kids p)) :=
  inv_each_child hI p f fuel hfuel

/-- Witness for C7: over the parent with children `[1, 2, 3]`, a visitor
that stops at the first visit is invoked on exactly one child. -/
theorem each_child_visits_in_order_witness :
    each_child sP3 0 (fun _ => false) 3 = some [1] := by
  have h := each_child_visits_in_order sP3 kidsP3 invP3 0 (fun _ => false) 3 (by decide)
  exact h

/-- C1: starting from an initially childless parent and three distinct fresh
nodes in an invariant-satisfying store, the three `add_child` calls succeed
and `each_child` with a never-stopping visitor invokes it exactly on
`c1, c2, c3` in insertion order. -/
theorem insertion_order_preserved (s : State) (kids : Nat → List Nat) (hI : Inv s kids)
    (p c1 c2 c3 : Nat)
    (hd1 : p ≠ c1) (hd2 : p ≠ c2) (hd3 : p ≠ c3)
    (hd4 : c1 ≠ c2) (hd5 : c1 ≠ c3) (hd6 : c2 ≠ c3)
    (hp1 : (s c1).parent = none) (hp2 : (s c2).parent = none) (hp3 : (s c3).parent = none)
    (hchildless : (s p).first_child = none) :
    ∃ s1 s2 s3, add_child s p c1 = Except.ok s1 ∧ add_child s1 p c2 = Except.ok s2 ∧
      add_child s2 p c3 = Except.ok s3 ∧
      each_child s3 p (fun _ => true) 3 = some [c1, c2, c3] := by
  have hkp : kids p = [] :=
    headOr_eq_none _ ((hI.first_eq p).symm.trans hchildless)
  have hlastp : (s p).last_child = none := by
    rw [hI.last_eq p, hkp]
    rfl
  have hok1 : add_child s p c1 = Except.ok (addUpdNone s p c1) :=
    add_child_ok_none hd1 hp1 (hI.clean c1 hp1).1 (hI.clean c1 hp1).2 hlastp
  have hI1 : Inv (addUpdNone s p c1) (fupdate kids p (kids p ++ [c1])) :=
    @add_child_inv s kids p c1 (addUpdNone s p c1) hI hok1
  have e21 : (addUpdNone s p c1 c2).parent = none := by
    rw [addUpdNone_parent, if_neg (fun h => hd4 h.symm)]
    exact hp2
  have e22 : (addUpdNone s p c1 c2).prev_sibling = none := by
    rw [addUpdNone_prev]
    exact (hI.clean c2 hp2).1
  have e23 : (addUpdNone s p c1 c2).next_sibling = none := by
    rw [addUpdNone_next]
    exact (hI.clean c2 hp2).2
  have hl1 : (addUpdNone s p c1 p).last_child = some c1 := by
    rw [addUpdNone_last, if_pos rfl]
  have hn1 : (addUpdNone s p c1 c1).next_sibling = none := by
    rw [addUpdNone_next]
    exact (hI.clean c1 hp1).2
  have hok2 : add_child (addUpdNone s p c1) p c2 =
      Except.ok (addUpdSome (addUpdNone s p c1) p c2 c1) :=
    add_child_ok_some hd2 e21 e22 e23 hl1 hn1
  have hI2 : Inv (addUpdSome (addUpdNone s p c1) p c2 c1)
      (fupdate (fupdate kids p (kids p ++ [c1])) p
        (fupdate kids p (kids p ++ [c1]) p ++ [c2])) :=
    @add_child_inv (addUpdNone s p c1) (fupdate kids p (kids p ++ [c1])) p c2
      (addUpdSome (addUpdNone s p c1) p c2 c1) hI1 hok2
  have e31 : (addUpdSome (addUpdNone s p c1) p c2 c1 c3).parent = none := by
    rw [addUpdSome_parent, if_neg (fun h => hd6 h.symm), addUpdNone_parent,
      if_neg (fun h => hd5 h.symm)]
    exact hp3
  have e32 : (addUpdSome (addUpdNone s p c1) p c2 c1 c3).prev_sibling = none := by
    rw [addUpdSome_prev, if_neg (fun h => hd6 h.symm), addUpdNone_prev]
    exact (hI.clean c3 hp3).1
  have e33 : (addUpdSome (addUpdNone s p c1) p c2 c1 c3).next_sibling = none := by
    rw [addUpdSome_next, if_neg (fun h => hd5 h.symm), addUpdNone_next]
    exact (hI.clean c3 hp3).2
  have hl2 : (addUpdSome (addUpdNone s p c1) p c2 c1 p).last_child = some c2 := by
    rw [addUpdSome_last, if_pos rfl]
  have hn2 : (addUpdSome (addUpdNone s p c1) p c2 c1 c2).next_sibling = none := by
    rw [addUpdSome_next, if_neg (fun h => hd4 h.symm)]
    exact e23
  have hok3 : add_child (addUpdSome (addUpdNone s p c1) p c2 c1) p c3 =
      Except.ok (addUpdSome (addUpdSome (addUpdNone s p c1) p c2 c1) p c3 c2) :=
    add_child_ok_some hd3 e31 e32 e33 hl2 hn2
  have hI3 : Inv (addUpdSome (addUpdSome (addUpdNone s p c1) p c2 c1) p c3 c2)
      (fupdate (fupdate (fupdate kids p (kids p ++ [c1])) p
          (fupdate kids p (kids p ++ [c1]) p ++ [c2])) p
        (fupdate (fupdate kids p (kids p ++ [c1])) p
          (fupdate kids p (kids p ++ [c1]) p ++ [c2]) p ++ [c3])) :=
    @add_child_inv (addUpdSome (addUpdNone s p c1) p c2 c1)
      (fupdate (fupdate kids p (kids p ++ [c1])) p
        (fupdate kids p (kids p ++ [c1]) p ++ [c2]))
      p c3 (addUpdSome (addUpdSome (addUpdNone s p c1) p c2 c1) p c3 c2) hI2 hok3
  refine ⟨_, _, _, hok1, hok2, hok3, ?_⟩
  have hk3 : (fupdate (fupdate (fupdate kids p (kids p ++ [c1])) p
      (fupdate kids p (kids p ++ [c1]) p ++ [c2])) p
      (fupdate (fupdate kids p (kids p ++ [c1])) p
        (fupdate kids p (kids p ++ [c1]) p ++ [c2]) p ++ [c3])) p = [c1, c2, c3] := by
    simp [fupdate, hkp]
  have h := inv_each_child hI3 p (fun _ => true) 3 (by rw [hk3]; exact Nat.le_refl 3)
  rw [hk3] at h
  exact h

/-- Witness for C1 at the fresh store with parent 0 and children 1, 2, 3. -/
theorem insertion_order_preserved_witness :
    ∃ s1 s2 s3, add_child initState 0 1 = Except.ok s1 ∧
      add_child s1 0 2 = Except.ok s2 ∧ add_child s2 0 3 = Except.ok s3 ∧
      each_child s3 0 (fun _ => true) 3 = some [1, 2, 3] :=
  insertion_order_preserved initState kidsNil inv_init 0 1 2 3
    (by decide) (by decide) (by decide) (by decide) (by decide) (by decide)
    rfl rfl rfl rfl

/-- C2: in every store reachable from fresh nodes by successful
`add_child`/`remove_child` operations, for every parent the forward walk
from `first_child` along `next_sibling` terminates in a list `l`, and the
backward walk from `last_child` along `prev_sibling` terminates in exactly
`l.reverse`. -/
theorem sibling_list_symmetry (s : State) (hs : Reachable s) (p : Nat) :
    ∃ l : List Nat, chainEval (nextF s) ((s p).first_child) l.length = some l ∧
      chainEval (prevF s) ((s p).last_child) l.length = some l.reverse := by
  obtain ⟨kids, hI⟩ := reachable_good hs
  refine ⟨kids p, ?_, ?_⟩
  · rw [hI.first_eq p]
    exact seg_chainEval (hI.links p) _ le_rfl
  · rw [hI.last_eq p]
    have hrev := seg_reverse (hI.links p)
    have h := seg_chainEval hrev ((kids p).length) (by simp)
    exact h

/-- Witness for C2 at the initial store. -/
theorem sibling_list_symmetry_witness :
    ∃ l : List Nat, chainEval (nextF initState) ((initState 0).first_child) l.length = some l ∧
      chainEval (prevF initState) ((initState 0).last_child) l.length = some l.reverse :=
  sibling_list_symmetry initState Reachable.init 0

/-- C5 counterexample: in a corrupted store none of the claim's three
failure conditions holds for `add_child(0, 1)` — the nodes are distinct and
node 1 is fully detached — yet the call fails, on the tail assertion
`lc_tf.next_sibling.is_none()`.  The claim's "otherwise succeeds" is
therefore false as stated. -/
theorem add_child_failure_cex :
    ((0 : Nat) ≠ 1 ∧ (s5state 1).parent = none ∧ (s5state 1).prev_sibling = none ∧
      (s5state 1).next_sibling = none) ∧
    isOkE (add_child s5state 0 1) = false :=
  ⟨⟨by decide, rfl, rfl, rfl⟩, rfl⟩

/-- C5 (amended with the fourth failure case): `add_child` succeeds exactly
when the parent and child are distinct, the child is fully detached, and the
parent's last child (if any) has no dangling `next_sibling`; and each failure
is reported with its own distinguishable error. -/
theorem add_child_failure_characterization (s : State) (p c : Nat) :
    ((∃ s', add_child s p c = Except.ok s') ↔
      (p ≠ c ∧ (s c).parent = none ∧ (s c).prev_sibling = none ∧
        (s c).next_sibling = none ∧
        ∀ lc, (s p).last_child = some lc → (s lc).next_sibling = none)) ∧
    (p = c → add_child s p c =
      Except.error "assertion failed: not tree_eq(parent, child)") ∧
    (p ≠ c → ∀ q, (s c).parent = some q →
      add_child s p c = Except.error "Already has a parent") ∧
    (p ≠ c → (s c).parent = none → (s c).prev_sibling ≠ none →
      add_child s p c =
        Except.error "assertion failed: child_tf.prev_sibling.is_none()") ∧
    (p ≠ c → (s c).parent = none → (s c).prev_sibling = none →
      (s c).next_sibling ≠ none →
      add_child s p c =
        Except.error "assertion failed: child_tf.next_sibling.is_none()") ∧
    (p ≠ c → (s c).parent = none → (s c).prev_sibling = none →
      (s c).next_sibling = none →
      ∀ lc, (s p).last_child = some lc → (s lc).next_sibling ≠ none →
        add_child s p c =
          Except.error "assertion failed: lc_tf.next_sibling.is_none()") := by
  refine ⟨?_, ?_, ?_, ?_, ?_, ?_⟩
  · constructor
    · rintro ⟨s', hok⟩
      rw [add_child_ok_iff] at hok
      obtain ⟨hpc, h1, h2, h3, hcase⟩ := hok
      refine ⟨hpc, h1, h2, h3, ?_⟩
      intro lc hl
      rcases hcase with ⟨hlnone, -⟩ | ⟨lc2, hl2, hn2, -⟩
      · rw [hlnone] at hl
        cases hl
      · rw [hl2] at hl
        obtain rfl : lc2 = lc := Option.some.inj hl
        exact hn2
    · rintro ⟨hpc, h1, h2, h3, h4⟩
      rcases hl : (s p).last_child with _ | lc
      · exact ⟨_, add_child_ok_none hpc h1 h2 h3 hl⟩
      · exact ⟨_, add_child_ok_some hpc h1 h2 h3 hl (h4 lc hl)⟩
  · intro h
    unfold add_child
    rw [if_pos h]
  · intro hpc q hq
    unfold add_child
    rw [if_neg hpc, hq]
  · intro hpc hpar hpv
    rw [add_child_eval s p c hpc hpar]
    rcases hv : (s c).prev_sibling with _ | v
    · exact absurd hv hpv
    · rfl
  · intro hpc hpar hpv hnx
    rw [add_child_eval s p c hpc hpar, hpv]
    rcases hv : (s c).next_sibling with _ | v
    · exact absurd hv hnx
    · rfl
  · intro hpc hpar hpv hnx lc hl hn
    rw [add_child_eval s p c hpc hpar, hpv, hnx]
    dsimp only [Option.isSome_none, Bool.false_eq_true, if_false]
    rw [hl]
    dsimp only
    rcases hv : (s lc).next_sibling with _ | v
    · exact absurd hv hn
    · rfl

/-- Witness for C5: a success, the self-parenting error, and the
already-has-a-parent error at concrete stores. -/
theorem add_child_failure_characterization_witness :
    (∃ s', add_child initState 0 1 = Except.ok s') ∧
    add_child initState 2 2 =
      Except.error "assertion failed: not tree_eq(parent, child)" ∧
    add_child sP1 0 1 = Except.error "Already has a parent" := by
  refine ⟨?_, ?_, ?_⟩
  · exact (add_child_failure_characterization initState 0 1).1.mpr
      ⟨by decide, rfl, rfl, rfl, fun lc h => by simp [initState, empty] at h⟩
  · exact (add_child_failure_characterization initState 2 2).2.1 rfl
  · exact (add_child_failure_characterization sP1 0 1).2.2.1 (by decide) 0 rfl

/-- C8: if following `next_sibling` from the node's `first_child` reaches
`none` (the walk terminates in a list `l` within some fuel), then for every
visitor `each_child` terminates with a fixed invocation list whose length is
bounded by the number of children. -/
theorem each_child_terminates_bounded (s : State) (node : Nat) (l : List Nat) (fuel0 : Nat)
    (hch : chainEval (nextF s) ((s node).first_child) fuel0 = some l) (f : Nat → Bool) :
    ∃ v, (∀ fuel, l.length ≤ fuel → each_child s node f fuel = some v) ∧
      v.length ≤ l.length := by
  refine ⟨visitsSpec f l, ?_, visitsSpec_length f l⟩
  intro fuel hf
  exact eachRun_eq_visits (chainEval_stable hch fuel hf)

/-- Witness for C8 over the parent with three children. -/
theorem each_child_terminates_bounded_witness :
    ∃ v, (∀ fuel, ([1, 2, 3] : List Nat).length ≤ fuel →
        each_child sP3 0 (fun _ => true) fuel = some v) ∧
      v.length ≤ ([1, 2, 3] : List Nat).length :=
  each_child_terminates_bounded sP3 0 [1, 2, 3] 3 rfl (fun _ => true)

end ServoTree
